import Mathlib

/-!
Shallow embedding of `src/fix-markdown-links.py` (streamwall/streamwall-suite).

Strings are represented as `List Char` (Python `str` is a sequence of code
points; all operations used by the script — `startswith`, `in` (substring),
`split('/')`, `'/'.join`, slicing — are faithfully reproduced on `List Char`).

Filesystem-dependent path resolution
(`(current_dir / relative_path).resolve().relative_to(Path.cwd())`, guarded by
`try ... except (ValueError, OSError)`) is embedded as an explicit resolution
function `resolve : List Char → Option (List Char)`: `some p` models a
successful normalization to path `p` relative to the repo root, `none` models
the exception being raised.  A concrete, purely lexical instantiation
`pathlib_resolve` (no symlinks) is provided for evaluating the program on
concrete inputs.
-/

/-- `MAIN_REPO` constant of the script. -/
def MAIN_REPO : List Char := "https://github.com/sayhiben/streamwall-suite".data

/-- `DEFAULT_BRANCH` constant of the script. -/
def DEFAULT_BRANCH : List Char := "main".data

/-- The `SUBMODULES` dict of the script (ordered key/value pairs; keys are
unique, so association-list lookup agrees with Python dict lookup). -/
def SUBMODULES : List (List Char × List Char) :=
  [("streamsource".data, "https://github.com/streamwall/streamsource".data),
   ("livestream-link-monitor".data, "https://github.com/streamwall/livestream-link-monitor".data),
   ("livesheet-updater".data, "https://github.com/streamwall/livesheet-updater".data),
   ("streamwall".data, "https://github.com/streamwall/streamwall".data)]

/-- Python `s.split('/')` on a `List Char` string: splits at every `'/'`,
keeping empty segments (`"".split('/') = ['']`, `"a/".split('/') = ['a','']`). -/
def splitSlash : List Char → List (List Char)
  | [] => [[]]
  | c :: cs =>
    if c = '/' then [] :: splitSlash cs
    else
      match splitSlash cs with
      | [] => [[c]]
      | s :: rest => (c :: s) :: rest

/-- Python `pat in s` (substring containment) on `List Char` strings. -/
def hasInfix (pat : List Char) : List Char → Bool
  | [] => pat.isEmpty
  | c :: cs => pat.isPrefixOf (c :: cs) || hasInfix pat cs

/-- `convert_to_github_url(relative_path, current_file)` of the script, with
the filesystem-dependent `try` block abstracted into the `resolve` argument
(`none` = the `except (ValueError, OSError)` branch is taken).

Python source, line by line:
* `if relative_path.startswith('./'): relative_path = relative_path[2:]`
* `resolved_path = ...` (try/except, here `resolve`; on failure the raw
  — already `./`-stripped — string is used)
* `path_parts = resolved_path.split('/')`
* `if path_parts and path_parts[0] in SUBMODULES: return
  f"{SUBMODULES[path_parts[0]]}/blob/{DEFAULT_BRANCH}/{'/'.join(path_parts[1:])}"`
* `return f"{MAIN_REPO}/blob/{DEFAULT_BRANCH}/{resolved_path}"` -/
def convert_to_github_url (resolve : List Char → Option (List Char))
    (relative_path : List Char) : List Char :=
  let relative_path :=
    if List.isPrefixOf "./".data relative_path then relative_path.drop 2 else relative_path
  let resolved_path :=
    match resolve relative_path with
    | some p => p
    | none => relative_path
  let path_parts := splitSlash resolved_path
  match path_parts with
  | [] => MAIN_REPO ++ "/blob/".data ++ DEFAULT_BRANCH ++ '/' :: resolved_path
  | submodule :: rest =>
    match SUBMODULES.lookup submodule with
    | some base =>
      base ++ "/blob/".data ++ DEFAULT_BRANCH ++ '/' :: List.intercalate ['/'] rest
    | none => MAIN_REPO ++ "/blob/".data ++ DEFAULT_BRANCH ++ '/' :: resolved_path

/-- The eligibility filter of `replace_link`:
`url.startswith(('http://', 'https://', '#'))`. -/
def isAbsoluteOrAnchor (url : List Char) : Bool :=
  List.isPrefixOf "http://".data url || List.isPrefixOf "https://".data url ||
    List.isPrefixOf "#".data url

/-- The last two disjuncts of `needs_conversion` (the namespace condition):
`any(url.startswith(f"{submodule}/") for submodule in SUBMODULES) or
url.split('/')[0] in SUBMODULES`. -/
def submoduleCond (url : List Char) : Bool :=
  SUBMODULES.any (fun kv => List.isPrefixOf (kv.1 ++ ['/']) url) ||
    SUBMODULES.any (fun kv =>
      kv.1 = (match splitSlash url with
              | s :: _ => s
              | [] => []))

/-- The `needs_conversion` expression of `replace_link`:
`'../' in url or url.startswith('./') or any(url.startswith(f"{submodule}/")
for submodule in SUBMODULES) or url.split('/')[0] in SUBMODULES`.
(`url.split('/')` is never empty, so indexing `[0]` is total.) -/
def needs_conversion (url : List Char) : Bool :=
  hasInfix "../".data url || List.isPrefixOf "./".data url || submoduleCond url

/-- `replace_link` converts a candidate target exactly when it is not exempt
and `needs_conversion` holds. -/
def shouldConvert (url : List Char) : Bool :=
  !isAbsoluteOrAnchor url && needs_conversion url

/-- `replace_link(match)` of the script: given the two captured groups
(`text`, `url`), returns the text substituted for the whole match together
with whether `modified` was set by this occurrence.  The unchanged branches
return `match.group(0) = "[" + text + "](" + url + ")"`; the converting branch
returns `f"[{text}]({absolute_url})"`. -/
def replace_link (resolve : List Char → Option (List Char))
    (text url : List Char) : List Char × Bool :=
  if isAbsoluteOrAnchor url then
    ('[' :: text ++ ']' :: '(' :: url ++ [')'], false)
  else if needs_conversion url then
    ('[' :: text ++ ']' :: '(' :: convert_to_github_url resolve url ++ [')'], true)
  else
    ('[' :: text ++ ']' :: '(' :: url ++ [')'], false)

/-- Matching the continuation of the regex `\[([^\]]+)\]\(([^)]+)\)` after the
label and its closing `]` have been consumed: expects `(`, a nonempty run of
non-`)` characters, and `)`; returns the target and the rest of the input.
Backtracking cannot help the greedy `[^)]+`: every proper prefix of the
maximal run is followed by a non-`)` character, so failure here is failure of
the whole match.  (The head dropped by the inner `dropWhile` is necessarily
the first `)`, so it need not be re-tested.) -/
def tryAfterBracket (r1 : List Char) : Option (List Char × List Char) :=
  match r1 with
  | [] => none
  | c :: r2 =>
    if c = '(' then
      let target := r2.takeWhile (fun c => c ≠ ')')
      match r2.dropWhile (fun c => c ≠ ')') with
      | [] => none
      | _ :: r4 => if target = [] then none else some (target, r4)
    else none

/-- Attempt to match the regex `\[([^\]]+)\]\(([^)]+)\)` at the current
position, with the leading `[` already consumed.  `[^\]]+` is greedy and any
shorter choice is followed by a non-`]` character, so the label is exactly the
maximal run of non-`]` characters; if what follows is not `](…` the regex
engine fails at this position with no useful backtracking.  Returns
`(label, target, rest-of-input)` on success.  (The head dropped by the
`dropWhile` is necessarily the first `]`, so it need not be re-tested.) -/
def tryMatch (cs : List Char) : Option (List Char × List Char × List Char) :=
  let label := cs.takeWhile (fun c => c ≠ ']')
  if label = [] then none
  else
    match cs.dropWhile (fun c => c ≠ ']') with
    | [] => none
    | _ :: r1 => (tryAfterBracket r1).map (fun p => (label, p.1, p.2))

/-- Fueled worker for `link_pattern.sub(replace_link, content)`: scans left to
right, trying the pattern at each position; on a match, emits the replacement
and resumes after the match (the semantics of `re.sub`).  Each step consumes
at least one character, so fuel `content.length` suffices. -/
def subLinksGo (resolve : List Char → Option (List Char)) :
    Nat → List Char → List Char
  | _, [] => []
  | 0, cs => cs
  | fuel + 1, c :: cs =>
    if c = '[' then
      match tryMatch cs with
      | some (l, t, r) => (replace_link resolve l t).1 ++ subLinksGo resolve fuel r
      | none => c :: subLinksGo resolve fuel cs
    else c :: subLinksGo resolve fuel cs

/-- `new_content = link_pattern.sub(replace_link, content)` of
`process_markdown_file`. -/
def new_content (resolve : List Char → Option (List Char)) (content : List Char) :
    List Char :=
  subLinksGo resolve content.length content

/-- Fueled worker computing the final value of the `modified` flag: `true` iff
some occurrence took the converting branch of `replace_link`. -/
def modifiedGo (resolve : List Char → Option (List Char)) : Nat → List Char → Bool
  | _, [] => false
  | 0, _ => false
  | fuel + 1, c :: cs =>
    if c = '[' then
      match tryMatch cs with
      | some (l, t, r) => (replace_link resolve l t).2 || modifiedGo resolve fuel r
      | none => modifiedGo resolve fuel cs
    else modifiedGo resolve fuel cs

/-- The value of the `modified` flag after the `link_pattern.sub` pass of
`process_markdown_file`. -/
def modifiedFlag (resolve : List Char → Option (List Char)) (content : List Char) :
    Bool :=
  modifiedGo resolve content.length content

/-- Fueled worker for the Link Locator: the sequence of `(label, target)`
pairs of the non-overlapping left-to-right matches of
`\[([^\]]+)\]\(([^)]+)\)` in the document text. -/
def linksGo : Nat → List Char → List (List Char × List Char)
  | _, [] => []
  | 0, _ => []
  | fuel + 1, c :: cs =>
    if c = '[' then
      match tryMatch cs with
      | some (l, t, r) => (l, t) :: linksGo fuel r
      | none => linksGo fuel cs
    else linksGo fuel cs

/-- The link occurrences of a document's text, in match order. -/
def link_occurrences (content : List Char) : List (List Char × List Char) :=
  linksGo content.length content

/-- The observable environment of one document in a run of the script:
whether the path exists and is a regular file, the outcome of
`file_path.read_text` (`none` = the `except` branch), whether
`file_path.write_text` would succeed, and the path-resolution function
induced by the document's directory and the working root. -/
structure FileModel where
  present : Bool
  isFile : Bool
  readResult : Option (List Char)
  writeOk : Bool
  resolve : List Char → Option (List Char)

/-- The boolean returned by `process_markdown_file(file_path)`: `false` when
reading fails; otherwise, when `modified` is set the write is attempted and
the function returns `false` on write failure and `modified` (= `true`) on
success; when `modified` is not set it returns `modified` (= `false`). -/
def process_markdown_file (f : FileModel) : Bool :=
  match f.readResult with
  | none => false
  | some content =>
    let m := modifiedFlag f.resolve content
    if m then f.writeOk else m

/-- The content `process_markdown_file` attempts to write back
(`none` = no write is performed, because reading failed or `modified`
stayed `false`). -/
def writtenText (f : FileModel) : Option (List Char) :=
  match f.readResult with
  | none => none
  | some content =>
    if modifiedFlag f.resolve content then some (new_content f.resolve content) else none

/-- The `updated_count` printed by `main()`: the number of processed files for
which `file_path.exists() and file_path.is_file()` and
`process_markdown_file(file_path)` returned `True`. -/
def main_updated_count (files : List FileModel) : Nat :=
  files.countP (fun f => f.present && f.isFile && process_markdown_file f)

/-- Concrete, purely lexical model of the `try` block
`(current_dir / relative_path).resolve().relative_to(Path.cwd())` for a
symlink-free filesystem: `cwd` and `currentDir` are absolute paths given as
segment lists; the relative path is split on `/`, empty and `.` segments are
dropped, `..` pops a segment, and the result must extend `cwd`
(otherwise `relative_to` raises `ValueError`, modelled by `none`). -/
def pathlib_resolve (cwd currentDir : List (List Char)) (rel : List Char) :
    Option (List Char) :=
  let segs := currentDir ++ (splitSlash rel).filter (fun s => !(s = [] || s = ".".data))
  let norm := segs.foldl (fun acc s => if s = "..".data then acc.dropLast else acc ++ [s]) []
  if cwd.isPrefixOf norm then some (List.intercalate ['/'] (norm.drop cwd.length))
  else none

/-- First path segment of a resolved path, as the fourth condition of
`needs_conversion` and the submodule classification read it: the part before
the first `/` (the whole string when there is no `/`). -/
def firstSegment (p : List Char) : List Char :=
  p.takeWhile (fun c => c ≠ '/')

/-- The remaining path after the first separator (empty when there is no
separator). -/
def afterFirstSegment (p : List Char) : List Char :=
  (p.dropWhile (fun c => c ≠ '/')).drop 1

/-- The replacement URL exactly as the specification words it: resolve (with
`./` stripped first, raw string on failure), then — if the first segment of
the resolved path equals a sub-namespace key — concatenate
`{that sub-namespace's base URL}/blob/{branch}/{remaining path after the
first separator}`, and otherwise
`{main namespace base URL}/blob/{branch}/{resolved path}`. -/
def github_url_per_spec (resolve : List Char → Option (List Char))
    (url : List Char) : List Char :=
  let raw := if List.isPrefixOf "./".data url then url.drop 2 else url
  let p :=
    match resolve raw with
    | some q => q
    | none => raw
  match SUBMODULES.lookup (firstSegment p) with
  | some base => base ++ "/blob/".data ++ DEFAULT_BRANCH ++ '/' :: afterFirstSegment p
  | none => MAIN_REPO ++ "/blob/".data ++ DEFAULT_BRANCH ++ '/' :: p

/-! ### Structure of `splitSlash` -/

theorem splitSlash_ne_nil (l : List Char) : splitSlash l ≠ [] := by
  cases l with
  | nil => simp [splitSlash]
  | cons c cs =>
    simp only [splitSlash]
    split
    · simp
    · split <;> simp

theorem intercalate_cons_of_ne_nil (a : List Char) {ps : List (List Char)}
    (h : ps ≠ []) :
    List.intercalate ['/'] (a :: ps) = a ++ '/' :: List.intercalate ['/'] ps := by
  cases ps with
  | nil => exact absurd rfl h
  | cons b t => simp [List.intercalate, List.intersperse]

theorem intercalate_splitSlash (l : List Char) :
    List.intercalate ['/'] (splitSlash l) = l := by
  induction l with
  | nil => simp [splitSlash, List.intercalate]
  | cons c cs ih =>
    simp only [splitSlash]
    split
    · rename_i hc
      rw [intercalate_cons_of_ne_nil _ (splitSlash_ne_nil cs), ih, hc]
      simp
    · rename_i hc
      rcases hs : splitSlash cs with - | ⟨s, rest⟩
      · exact absurd hs (splitSlash_ne_nil cs)
      · rw [hs] at ih
        cases rest with
        | nil =>
          simp only [List.intercalate, List.intersperse] at ih ⊢
          simp_all
        | cons r rs =>
          rw [intercalate_cons_of_ne_nil _ (by simp)] at ih ⊢
          simp_all

theorem splitSlash_head_eq {p : List Char} {p0 : List Char} {ps : List (List Char)}
    (h : splitSlash p = p0 :: ps) : p0 = firstSegment p := by
  induction p generalizing p0 ps with
  | nil => simp [splitSlash] at h; simp [firstSegment, h.1]
  | cons c cs ih =>
    simp only [splitSlash] at h
    by_cases hc : c = '/'
    · simp only [hc, if_pos rfl] at h
      cases h
      simp [firstSegment, hc]
    · rw [if_neg hc] at h
      rcases hs : splitSlash cs with - | ⟨s, rest⟩
      · exact absurd hs (splitSlash_ne_nil cs)
      · rw [hs] at h
        cases h
        have h2 : firstSegment (c :: cs) = c :: firstSegment cs := by
          simp [firstSegment, hc]
        rw [h2, ← ih hs]

theorem splitSlash_tail_eq {p : List Char} {p0 : List Char} {ps : List (List Char)}
    (h : splitSlash p = p0 :: ps) :
    List.intercalate ['/'] ps = afterFirstSegment p := by
  induction p generalizing p0 ps with
  | nil =>
    simp [splitSlash] at h
    simp [afterFirstSegment, h.2, List.intercalate]
  | cons c cs ih =>
    simp only [splitSlash] at h
    by_cases hc : c = '/'
    · simp only [hc, if_pos rfl] at h
      cases h
      simp [afterFirstSegment, hc, intercalate_splitSlash]
    · rw [if_neg hc] at h
      rcases hs : splitSlash cs with - | ⟨s, rest⟩
      · exact absurd hs (splitSlash_ne_nil cs)
      · rw [hs] at h
        cases h
        have h2 : afterFirstSegment (c :: cs) = afterFirstSegment cs := by
          simp [afterFirstSegment, hc]
        rw [h2, ← ih hs]

theorem firstSegment_cases {url p0 : List Char} {ps : List (List Char)}
    (h : splitSlash url = p0 :: ps) :
    url = p0 ∨ ∃ rest, url = p0 ++ '/' :: rest := by
  cases ps with
  | nil =>
    left
    have := intercalate_splitSlash url
    rw [h] at this
    simpa [List.intercalate, List.intersperse] using this.symm
  | cons q qs =>
    right
    have := intercalate_splitSlash url
    rw [h, intercalate_cons_of_ne_nil _ (by simp)] at this
    exact ⟨_, this.symm⟩

theorem splitSlash_no_slash {k : List Char} (h : ∀ c ∈ k, c ≠ '/') :
    splitSlash k = [k] := by
  induction k with
  | nil => simp [splitSlash]
  | cons c cs ih =>
    have hc : c ≠ '/' := h c (by simp)
    simp only [splitSlash, if_neg hc]
    rw [ih (fun x hx => h x (by simp [hx]))]

theorem splitSlash_append_slash {k : List Char} (x : List Char)
    (h : ∀ c ∈ k, c ≠ '/') :
    splitSlash (k ++ '/' :: x) = k :: splitSlash x := by
  induction k with
  | nil => simp [splitSlash]
  | cons c cs ih =>
    have hc : c ≠ '/' := h c (by simp)
    have ih' := ih (fun y hy => h y (by simp [hy]))
    show splitSlash (c :: (cs ++ '/' :: x)) = (c :: cs) :: splitSlash x
    simp only [splitSlash, if_neg hc]
    rw [show splitSlash (cs ++ '/' :: x) = cs :: splitSlash x from ih']

/-! ### `takeWhile` / `dropWhile` helpers -/

theorem takeWhile_append_all {p : Char → Bool} {A : List Char} (b : Char)
    (B : List Char) (hA : ∀ c ∈ A, p c = true) (hb : p b = false) :
    (A ++ b :: B).takeWhile p = A := by
  induction A with
  | nil => simp [List.takeWhile, hb]
  | cons a A ih =>
    have ha : p a = true := hA a (by simp)
    show List.takeWhile p (a :: (A ++ b :: B)) = a :: A
    rw [List.takeWhile_cons, ha]
    simp only [cond_true]
    exact congrArg (a :: ·) (ih (fun c hc => hA c (by simp [hc])))

theorem dropWhile_append_all {p : Char → Bool} {A : List Char} (b : Char)
    (B : List Char) (hA : ∀ c ∈ A, p c = true) (hb : p b = false) :
    (A ++ b :: B).dropWhile p = b :: B := by
  induction A with
  | nil => simp [List.dropWhile, hb]
  | cons a A ih =>
    have ha : p a = true := hA a (by simp)
    show List.dropWhile p (a :: (A ++ b :: B)) = b :: B
    rw [List.dropWhile_cons, ha]
    simp only [cond_true]
    exact ih (fun c hc => hA c (by simp [hc]))

theorem dropWhile_cons_head {p : Char → Bool} {l : List Char} {b : Char}
    {bs : List Char} (h : l.dropWhile p = b :: bs) : p b = false := by
  induction l with
  | nil => simp [List.dropWhile] at h
  | cons a l ih =>
    rw [List.dropWhile_cons] at h
    split at h
    · exact ih h
    · cases h
      simp_all

/-! ### Properties of `tryMatch` -/

theorem tryMatch_def (cs : List Char) :
    tryMatch cs =
      if cs.takeWhile (fun c => c ≠ ']') = [] then none
      else
        match cs.dropWhile (fun c => c ≠ ']') with
        | [] => none
        | _ :: r1 =>
          (tryAfterBracket r1).map
            (fun p => (cs.takeWhile (fun c => c ≠ ']'), p.1, p.2)) := rfl

theorem tryAfterBracket_lparen (r2 : List Char) :
    tryAfterBracket ('(' :: r2) =
      match r2.dropWhile (fun c => c ≠ ')') with
      | [] => none
      | _ :: r4 =>
        if r2.takeWhile (fun c => c ≠ ')') = [] then none
        else some (r2.takeWhile (fun c => c ≠ ')'), r4) := rfl

theorem tryAfterBracket_not_lparen {c : Char} (r2 : List Char) (h : c ≠ '(') :
    tryAfterBracket (c :: r2) = none := by
  show (if c = '(' then _ else none) = none
  rw [if_neg h]
theorem tryAfterBracket_eq {r1 t r : List Char}
    (h : tryAfterBracket r1 = some (t, r)) :
    r1 = '(' :: (t ++ ')' :: r) ∧ t ≠ [] ∧ ∀ c ∈ t, c ≠ ')' := by
  cases r1 with
  | nil => exact Option.noConfusion h
  | cons c r2 =>
    by_cases hc : c = '('
    · subst hc
      rw [tryAfterBracket_lparen] at h
      rcases hd : r2.dropWhile (fun c => c ≠ ')') with - | ⟨b, r4⟩ <;> rw [hd] at h <;>
        dsimp only at h
      · exact Option.noConfusion h
      · split at h
        · exact Option.noConfusion h
        · rename_i htar
          simp only [Option.some.injEq, Prod.mk.injEq] at h
          obtain ⟨h1, h2⟩ := h
          have hb : b = ')' := by simpa using dropWhile_cons_head hd
          have hr2 : r2 = t ++ ')' :: r := by
            have hj := List.takeWhile_append_dropWhile (fun c => c ≠ ')') r2
            rw [hd, h1, hb, h2] at hj
            exact hj.symm
          refine ⟨by rw [hr2], ?_, ?_⟩
          · rw [← h1]
            exact htar
          · intro x hx
            rw [← h1] at hx
            simpa using List.mem_takeWhile_imp hx
    · rw [tryAfterBracket_not_lparen r2 hc] at h
      exact Option.noConfusion h

theorem tryAfterBracket_some (t : List Char) (r : List Char)
    (htne : t ≠ []) (ht : ∀ c ∈ t, c ≠ ')') :
    tryAfterBracket ('(' :: (t ++ ')' :: r)) = some (t, r) := by
  have htt : (t ++ ')' :: r).takeWhile (fun c => c ≠ ')') = t :=
    takeWhile_append_all _ _ (fun c hc => by simpa using ht c hc) (by simp)
  have htd : (t ++ ')' :: r).dropWhile (fun c => c ≠ ')') = ')' :: r :=
    dropWhile_append_all _ _ (fun c hc => by simpa using ht c hc) (by simp)
  rw [tryAfterBracket_lparen, htd, htt]
  simp [htne]

theorem tryMatch_eq {cs l t r : List Char}
    (h : tryMatch cs = some (l, t, r)) :
    cs = l ++ ']' :: '(' :: (t ++ ')' :: r) ∧ l ≠ [] ∧ t ≠ [] ∧
      (∀ c ∈ l, c ≠ ']') ∧ (∀ c ∈ t, c ≠ ')') := by
  rw [tryMatch_def] at h
  split at h
  · exact absurd h (by simp)
  · rename_i hlab
    rcases hd : cs.dropWhile (fun c => c ≠ ']') with - | ⟨b, r1⟩ <;> rw [hd] at h <;>
      dsimp only at h
    · exact Option.noConfusion h
    · rcases htb : tryAfterBracket r1 with - | ⟨t2, r2⟩ <;> rw [htb] at h
      · exact Option.noConfusion h
      · simp only [Option.map_some', Option.some.injEq, Prod.mk.injEq] at h
        obtain ⟨h1, h2, h3⟩ := h
        obtain ⟨hr1, htne, htmem⟩ := tryAfterBracket_eq htb
        have hb : b = ']' := by simpa using dropWhile_cons_head hd
        have hcs : cs = l ++ ']' :: r1 := by
          have hj := List.takeWhile_append_dropWhile (fun c => c ≠ ']') cs
          rw [hd, h1, hb] at hj
          exact hj.symm
        refine ⟨?_, ?_, by rw [← h2]; exact htne, ?_, ?_⟩
        · rw [hcs, hr1, h2, h3]
        · rw [← h1]
          exact hlab
        · intro c hc
          rw [← h1] at hc
          simpa using List.mem_takeWhile_imp hc
        · intro c hc
          rw [← h2] at hc
          exact htmem c hc

theorem tryMatch_some_length {cs l t r : List Char}
    (h : tryMatch cs = some (l, t, r)) : r.length ≤ cs.length := by
  obtain ⟨hcs, -⟩ := tryMatch_eq h
  rw [hcs]
  simp only [List.length_append, List.length_cons]
  omega

theorem tryMatch_nil : tryMatch [] = none := rfl

theorem tryMatch_rbracket_cons (cs : List Char) : tryMatch (']' :: cs) = none := by
  rw [tryMatch_def]
  simp

theorem tryMatch_none_of_no_rbracket {cs : List Char}
    (h : ∀ c ∈ cs, c ≠ ']') : tryMatch cs = none := by
  have hd : cs.dropWhile (fun c => c ≠ ']') = [] := by
    rw [List.dropWhile_eq_nil_iff]
    intro a ha
    simpa using h a ha
  rw [tryMatch_def, hd]
  split <;> rfl

theorem tryMatch_append_structure {L : List Char} (X : List Char)
    (hL : ∀ c ∈ L, c ≠ ']') (hne : L ≠ []) :
    tryMatch (L ++ ']' :: X) =
      (tryAfterBracket X).map (fun p => (L, p.1, p.2)) := by
  have ht : (L ++ ']' :: X).takeWhile (fun c => c ≠ ']') = L :=
    takeWhile_append_all _ _ (fun c hc => by simpa using hL c hc) (by simp)
  have hd : (L ++ ']' :: X).dropWhile (fun c => c ≠ ']') = ']' :: X :=
    dropWhile_append_all _ _ (fun c hc => by simpa using hL c hc) (by simp)
  rw [tryMatch_def, ht, hd, if_neg hne]

theorem tryMatch_block {l t : List Char} (X : List Char)
    (hl : ∀ c ∈ l, c ≠ ']') (hlne : l ≠ [])
    (ht : ∀ c ∈ t, c ≠ ')') (htne : t ≠ []) :
    tryMatch (l ++ ']' :: '(' :: (t ++ ')' :: X)) = some (l, t, X) := by
  rw [tryMatch_append_structure ('(' :: (t ++ ')' :: X)) hl hlne,
    tryAfterBracket_some t X htne ht]
  rfl

/-! ### Fuel irrelevance and unfolding equations for the scanners -/

theorem subLinksGo_nil (resolve : List Char → Option (List Char)) (f : Nat) :
    subLinksGo resolve f [] = [] := by
  cases f <;> rfl

theorem subLinksGo_fuel (resolve : List Char → Option (List Char)) :
    ∀ f₁ f₂ cs, cs.length ≤ f₁ → cs.length ≤ f₂ →
      subLinksGo resolve f₁ cs = subLinksGo resolve f₂ cs := by
  intro f₁
  induction f₁ with
  | zero =>
    intro f₂ cs h1 _
    rw [List.length_eq_zero.mp (Nat.le_zero.mp h1)]
    rw [subLinksGo_nil, subLinksGo_nil]
  | succ f ih =>
    intro f₂ cs h1 h2
    cases cs with
    | nil => rw [subLinksGo_nil, subLinksGo_nil]
    | cons c cs =>
      cases f₂ with
      | zero => simp at h2
      | succ f₂ =>
        show subLinksGo resolve (f + 1) (c :: cs) = subLinksGo resolve (f₂ + 1) (c :: cs)
        simp only [subLinksGo]
        have hcs : cs.length ≤ f := by simpa using h1
        have hcs2 : cs.length ≤ f₂ := by simpa using h2
        split
        · rcases hm : tryMatch cs with - | ⟨l, t, r⟩ <;> dsimp only
          · rw [ih f₂ cs hcs hcs2]
          · have hr : r.length ≤ cs.length := tryMatch_some_length hm
            rw [ih f₂ r (le_trans hr hcs) (le_trans hr hcs2)]
        · rw [ih f₂ cs hcs hcs2]

theorem new_content_nil (resolve : List Char → Option (List Char)) :
    new_content resolve [] = [] := rfl

theorem new_content_cons_of_ne (resolve : List Char → Option (List Char))
    {c : Char} (cs : List Char) (hc : c ≠ '[') :
    new_content resolve (c :: cs) = c :: new_content resolve cs := by
  show subLinksGo resolve (cs.length + 1) (c :: cs) = _
  simp only [subLinksGo, if_neg hc]
  rfl

theorem new_content_cons_none (resolve : List Char → Option (List Char))
    {cs : List Char} (hm : tryMatch cs = none) :
    new_content resolve ('[' :: cs) = '[' :: new_content resolve cs := by
  show subLinksGo resolve (cs.length + 1) ('[' :: cs) = _
  simp only [subLinksGo, hm, if_pos rfl]
  rfl

theorem new_content_cons_some (resolve : List Char → Option (List Char))
    {cs l t r : List Char} (hm : tryMatch cs = some (l, t, r)) :
    new_content resolve ('[' :: cs) =
      (replace_link resolve l t).1 ++ new_content resolve r := by
  show subLinksGo resolve (cs.length + 1) ('[' :: cs) = _
  simp only [subLinksGo, hm, if_pos rfl]
  rw [show new_content resolve r = subLinksGo resolve r.length r from rfl,
    subLinksGo_fuel resolve cs.length r.length r (tryMatch_some_length hm) le_rfl]
  simp

theorem modifiedGo_nil (resolve : List Char → Option (List Char)) (f : Nat) :
    modifiedGo resolve f [] = false := by
  cases f <;> rfl

theorem modifiedGo_fuel (resolve : List Char → Option (List Char)) :
    ∀ f₁ f₂ cs, cs.length ≤ f₁ → cs.length ≤ f₂ →
      modifiedGo resolve f₁ cs = modifiedGo resolve f₂ cs := by
  intro f₁
  induction f₁ with
  | zero =>
    intro f₂ cs h1 _
    rw [List.length_eq_zero.mp (Nat.le_zero.mp h1)]
    rw [modifiedGo_nil, modifiedGo_nil]
  | succ f ih =>
    intro f₂ cs h1 h2
    cases cs with
    | nil => rw [modifiedGo_nil, modifiedGo_nil]
    | cons c cs =>
      cases f₂ with
      | zero => simp at h2
      | succ f₂ =>
        show modifiedGo resolve (f + 1) (c :: cs) = modifiedGo resolve (f₂ + 1) (c :: cs)
        simp only [modifiedGo]
        have hcs : cs.length ≤ f := by simpa using h1
        have hcs2 : cs.length ≤ f₂ := by simpa using h2
        split
        · rcases hm : tryMatch cs with - | ⟨l, t, r⟩ <;> dsimp only
          · rw [ih f₂ cs hcs hcs2]
          · have hr : r.length ≤ cs.length := tryMatch_some_length hm
            rw [ih f₂ r (le_trans hr hcs) (le_trans hr hcs2)]
        · rw [ih f₂ cs hcs hcs2]

theorem modifiedFlag_nil (resolve : List Char → Option (List Char)) :
    modifiedFlag resolve [] = false := rfl

theorem modifiedFlag_cons_of_ne (resolve : List Char → Option (List Char))
    {c : Char} (cs : List Char) (hc : c ≠ '[') :
    modifiedFlag resolve (c :: cs) = modifiedFlag resolve cs := by
  show modifiedGo resolve (cs.length + 1) (c :: cs) = _
  simp only [modifiedGo, if_neg hc]
  rfl

theorem modifiedFlag_cons_none (resolve : List Char → Option (List Char))
    {cs : List Char} (hm : tryMatch cs = none) :
    modifiedFlag resolve ('[' :: cs) = modifiedFlag resolve cs := by
  show modifiedGo resolve (cs.length + 1) ('[' :: cs) = _
  simp only [modifiedGo, hm, if_pos rfl]
  rfl

theorem modifiedFlag_cons_some (resolve : List Char → Option (List Char))
    {cs l t r : List Char} (hm : tryMatch cs = some (l, t, r)) :
    modifiedFlag resolve ('[' :: cs) =
      ((replace_link resolve l t).2 || modifiedFlag resolve r) := by
  show modifiedGo resolve (cs.length + 1) ('[' :: cs) = _
  simp only [modifiedGo, hm, if_pos rfl]
  rw [show modifiedFlag resolve r = modifiedGo resolve r.length r from rfl,
    modifiedGo_fuel resolve cs.length r.length r (tryMatch_some_length hm) le_rfl]
  simp

theorem linksGo_nil (f : Nat) : linksGo f [] = [] := by
  cases f <;> rfl

theorem linksGo_fuel :
    ∀ f₁ f₂ cs, cs.length ≤ f₁ → cs.length ≤ f₂ → linksGo f₁ cs = linksGo f₂ cs := by
  intro f₁
  induction f₁ with
  | zero =>
    intro f₂ cs h1 _
    rw [List.length_eq_zero.mp (Nat.le_zero.mp h1)]
    rw [linksGo_nil, linksGo_nil]
  | succ f ih =>
    intro f₂ cs h1 h2
    cases cs with
    | nil => rw [linksGo_nil, linksGo_nil]
    | cons c cs =>
      cases f₂ with
      | zero => simp at h2
      | succ f₂ =>
        show linksGo (f + 1) (c :: cs) = linksGo (f₂ + 1) (c :: cs)
        simp only [linksGo]
        have hcs : cs.length ≤ f := by simpa using h1
        have hcs2 : cs.length ≤ f₂ := by simpa using h2
        split
        · rcases hm : tryMatch cs with - | ⟨l, t, r⟩ <;> dsimp only
          · rw [ih f₂ cs hcs hcs2]
          · have hr : r.length ≤ cs.length := tryMatch_some_length hm
            rw [ih f₂ r (le_trans hr hcs) (le_trans hr hcs2)]
        · rw [ih f₂ cs hcs hcs2]

theorem link_occurrences_nil : link_occurrences [] = [] := rfl

theorem link_occurrences_cons_of_ne {c : Char} (cs : List Char) (hc : c ≠ '[') :
    link_occurrences (c :: cs) = link_occurrences cs := by
  show linksGo (cs.length + 1) (c :: cs) = _
  simp only [linksGo, if_neg hc]
  rfl

theorem link_occurrences_cons_none {cs : List Char} (hm : tryMatch cs = none) :
    link_occurrences ('[' :: cs) = link_occurrences cs := by
  show linksGo (cs.length + 1) ('[' :: cs) = _
  simp only [linksGo, hm, if_pos rfl]
  rfl

theorem link_occurrences_cons_some {cs l t r : List Char}
    (hm : tryMatch cs = some (l, t, r)) :
    link_occurrences ('[' :: cs) = (l, t) :: link_occurrences r := by
  show linksGo (cs.length + 1) ('[' :: cs) = _
  simp only [linksGo, hm, if_pos rfl]
  rw [show link_occurrences r = linksGo r.length r from rfl,
    linksGo_fuel cs.length r.length r (tryMatch_some_length hm) le_rfl]
  simp

/-! ### Properties of `replace_link` -/

theorem replace_link_fst (resolve : List Char → Option (List Char))
    (l t : List Char) :
    (replace_link resolve l t).1 =
      '[' :: l ++ ']' :: '(' ::
        ((if shouldConvert t then convert_to_github_url resolve t else t) ++ [')']) := by
  unfold replace_link shouldConvert
  rcases ha : isAbsoluteOrAnchor t <;> rcases hn : needs_conversion t <;> simp

theorem replace_link_snd (resolve : List Char → Option (List Char))
    (l t : List Char) :
    (replace_link resolve l t).2 = shouldConvert t := by
  unfold replace_link shouldConvert
  rcases ha : isAbsoluteOrAnchor t <;> rcases hn : needs_conversion t <;> simp

theorem replace_link_unchanged (resolve : List Char → Option (List Char))
    (l : List Char) {t : List Char} (h : shouldConvert t = false) :
    replace_link resolve l t = ('[' :: l ++ ']' :: '(' :: (t ++ [')']), false) := by
  unfold replace_link
  unfold shouldConvert at h
  rcases ha : isAbsoluteOrAnchor t <;> rw [ha] at h <;> simp at h ⊢
  exact h

/-! ### The shape of `convert_to_github_url` output -/

/-- The `./`-stripping step of `convert_to_github_url` (proof-side name for
its first two lines). -/
def stripDotSlash (t : List Char) : List Char :=
  if List.isPrefixOf "./".data t then t.drop 2 else t

/-- The `resolved_path` value computed by `convert_to_github_url`. -/
def resolvedPathOf (resolve : List Char → Option (List Char)) (t : List Char) :
    List Char :=
  match resolve (stripDotSlash t) with
  | some p => p
  | none => stripDotSlash t

/-- The namespace-classification step of `convert_to_github_url`, as a
function of the resolved path. -/
def classifyResolved (res : List Char) : List Char :=
  match splitSlash res with
  | [] => MAIN_REPO ++ "/blob/".data ++ DEFAULT_BRANCH ++ '/' :: res
  | submodule :: rest =>
    match SUBMODULES.lookup submodule with
    | some base =>
      base ++ "/blob/".data ++ DEFAULT_BRANCH ++ '/' :: List.intercalate ['/'] rest
    | none => MAIN_REPO ++ "/blob/".data ++ DEFAULT_BRANCH ++ '/' :: res

theorem convert_eq_classify (resolve : List Char → Option (List Char))
    (t : List Char) :
    convert_to_github_url resolve t = classifyResolved (resolvedPathOf resolve t) := rfl

theorem isPrefixOf_append_ext {l m x : List Char} (h : l.isPrefixOf m) :
    l.isPrefixOf (m ++ x) := by
  rw [List.isPrefixOf_iff_prefix] at h ⊢
  exact h.trans (List.prefix_append m x)

theorem SUBMODULES_lookup_https {s v : List Char}
    (h : SUBMODULES.lookup s = some v) :
    List.isPrefixOf "https://".data v = true := by
  simp only [SUBMODULES, List.lookup] at h
  repeat' split at h
  all_goals first
    | exact Option.noConfusion h
    | (injection h with h2; subst h2; decide)

theorem SUBMODULES_lookup_no_rparen {s v : List Char}
    (h : SUBMODULES.lookup s = some v) : ')' ∉ v := by
  simp only [SUBMODULES, List.lookup] at h
  repeat' split at h
  all_goals first
    | exact Option.noConfusion h
    | (injection h with h2; subst h2; decide)

theorem mem_of_mem_intercalate_tail {p p0 : List Char} {ps : List (List Char)}
    {c : Char} (hsp : splitSlash p = p0 :: ps)
    (hc : c ∈ List.intercalate ['/'] ps) : c ∈ p := by
  cases ps with
  | nil => simp [List.intercalate, List.intersperse] at hc
  | cons q qs =>
    have hp := intercalate_splitSlash p
    rw [hsp, intercalate_cons_of_ne_nil _ (by simp)] at hp
    rw [← hp]
    exact List.mem_append_right _ (List.mem_cons_of_mem _ hc)

theorem classify_https (res : List Char) :
    List.isPrefixOf "https://".data (classifyResolved res) = true := by
  unfold classifyResolved
  rcases hsp : splitSlash res with - | ⟨p0, ps⟩ <;> dsimp only
  · exact isPrefixOf_append_ext (isPrefixOf_append_ext (isPrefixOf_append_ext (by decide)))
  · rcases hlk : SUBMODULES.lookup p0 with - | ⟨base⟩ <;> dsimp only
    · exact isPrefixOf_append_ext (isPrefixOf_append_ext (isPrefixOf_append_ext (by decide)))
    · exact isPrefixOf_append_ext (isPrefixOf_append_ext
        (isPrefixOf_append_ext (SUBMODULES_lookup_https hlk)))

theorem convert_https (resolve : List Char → Option (List Char)) (t : List Char) :
    List.isPrefixOf "https://".data (convert_to_github_url resolve t) = true := by
  rw [convert_eq_classify]
  exact classify_https _

theorem convert_isAbsolute (resolve : List Char → Option (List Char))
    (t : List Char) : isAbsoluteOrAnchor (convert_to_github_url resolve t) = true := by
  unfold isAbsoluteOrAnchor
  rw [convert_https]
  simp

theorem convert_ne_nil (resolve : List Char → Option (List Char)) (t : List Char) :
    convert_to_github_url resolve t ≠ [] := by
  intro hnil
  have := convert_https resolve t
  rw [hnil] at this
  exact absurd this (by decide)

theorem classify_no_rparen {res : List Char} (hres : ')' ∉ res) :
    ')' ∉ classifyResolved res := by
  unfold classifyResolved
  rcases hsp : splitSlash res with - | ⟨p0, ps⟩ <;> dsimp only
  · intro hmem
    rcases List.mem_append.mp hmem with h1 | h2
    · rcases List.mem_append.mp h1 with h3 | h4
      · rcases List.mem_append.mp h3 with h5 | h6
        · exact absurd h5 (by decide)
        · exact absurd h6 (by decide)
      · exact absurd h4 (by decide)
    · rcases List.mem_cons.mp h2 with h5 | h6
      · exact absurd h5 (by decide)
      · exact hres h6
  · rcases hlk : SUBMODULES.lookup p0 with - | ⟨base⟩ <;> dsimp only
    · intro hmem
      rcases List.mem_append.mp hmem with h1 | h2
      · rcases List.mem_append.mp h1 with h3 | h4
        · rcases List.mem_append.mp h3 with h5 | h6
          · exact absurd h5 (by decide)
          · exact absurd h6 (by decide)
        · exact absurd h4 (by decide)
      · rcases List.mem_cons.mp h2 with h5 | h6
        · exact absurd h5 (by decide)
        · exact hres h6
    · intro hmem
      rcases List.mem_append.mp hmem with h1 | h2
      · rcases List.mem_append.mp h1 with h3 | h4
        · rcases List.mem_append.mp h3 with h5 | h6
          · exact SUBMODULES_lookup_no_rparen hlk h5
          · exact absurd h6 (by decide)
        · exact absurd h4 (by decide)
      · rcases List.mem_cons.mp h2 with h5 | h6
        · exact absurd h5 (by decide)
        · exact hres (mem_of_mem_intercalate_tail hsp h6)

theorem resolvedPathOf_no_rparen (resolve : List Char → Option (List Char))
    {t : List Char} (hres : ∀ s o, resolve s = some o → ')' ∉ o)
    (ht : ')' ∉ t) : ')' ∉ resolvedPathOf resolve t := by
  have hrp : ')' ∉ stripDotSlash t := by
    unfold stripDotSlash
    split
    · exact fun hmem => ht (List.mem_of_mem_drop hmem)
    · exact ht
  unfold resolvedPathOf
  rcases hr : resolve (stripDotSlash t) with - | ⟨p⟩ <;> dsimp only
  · exact hrp
  · exact hres _ p hr

theorem convert_no_rparen (resolve : List Char → Option (List Char))
    {t : List Char} (hres : ∀ s o, resolve s = some o → ')' ∉ o)
    (ht : ')' ∉ t) : ')' ∉ convert_to_github_url resolve t := by
  rw [convert_eq_classify]
  exact classify_no_rparen (resolvedPathOf_no_rparen resolve hres ht)

/-! ### Scanner lemmas for idempotence -/

theorem new_content_head? (resolve : List Char → Option (List Char))
    (cs : List Char) : (new_content resolve cs).head? = cs.head? := by
  cases cs with
  | nil => rfl
  | cons c cs =>
    by_cases hc : c = '['
    · subst hc
      rcases hm : tryMatch cs with - | ⟨l, t, r⟩
      · rw [new_content_cons_none resolve hm]
        rfl
      · rw [new_content_cons_some resolve hm, replace_link_fst]
        rfl
    · rw [new_content_cons_of_ne resolve cs hc]
      rfl

theorem tryMatch_none_of_no_rparen {cs : List Char}
    (h : ∀ c ∈ cs, c ≠ ')') : tryMatch cs = none := by
  rcases hm : tryMatch cs with - | ⟨l, t, r⟩
  · rfl
  · obtain ⟨hcs, -, -, -, -⟩ := tryMatch_eq hm
    exfalso
    refine h ')' ?_ rfl
    rw [hcs]
    simp

theorem new_content_of_no_rbracket (resolve : List Char → Option (List Char)) :
    ∀ cs : List Char, (∀ c ∈ cs, c ≠ ']') → new_content resolve cs = cs := by
  suffices h : ∀ n (cs : List Char), cs.length ≤ n → (∀ c ∈ cs, c ≠ ']') →
      new_content resolve cs = cs from fun cs hcs => h cs.length cs le_rfl hcs
  intro n
  induction n with
  | zero =>
    intro cs h1 _
    rw [List.length_eq_zero.mp (Nat.le_zero.mp h1)]
    rfl
  | succ n ih =>
    intro cs h1 hmem
    cases cs with
    | nil => rfl
    | cons c cs =>
      have hlen : cs.length ≤ n := by simpa using h1
      have hmem2 : ∀ x ∈ cs, x ≠ ']' := fun x hx => hmem x (by simp [hx])
      by_cases hc : c = '['
      · subst hc
        rw [new_content_cons_none resolve (tryMatch_none_of_no_rbracket hmem2)]
        rw [ih cs hlen hmem2]
      · rw [new_content_cons_of_ne resolve cs hc, ih cs hlen hmem2]

theorem new_content_of_no_rparen (resolve : List Char → Option (List Char)) :
    ∀ cs : List Char, (∀ c ∈ cs, c ≠ ')') → new_content resolve cs = cs := by
  suffices h : ∀ n (cs : List Char), cs.length ≤ n → (∀ c ∈ cs, c ≠ ')') →
      new_content resolve cs = cs from fun cs hcs => h cs.length cs le_rfl hcs
  intro n
  induction n with
  | zero =>
    intro cs h1 _
    rw [List.length_eq_zero.mp (Nat.le_zero.mp h1)]
    rfl
  | succ n ih =>
    intro cs h1 hmem
    cases cs with
    | nil => rfl
    | cons c cs =>
      have hlen : cs.length ≤ n := by simpa using h1
      have hmem2 : ∀ x ∈ cs, x ≠ ')' := fun x hx => hmem x (by simp [hx])
      by_cases hc : c = '['
      · subst hc
        rw [new_content_cons_none resolve (tryMatch_none_of_no_rparen hmem2)]
        rw [ih cs hlen hmem2]
      · rw [new_content_cons_of_ne resolve cs hc, ih cs hlen hmem2]

theorem new_content_inert_append (resolve : List Char → Option (List Char)) :
    ∀ L X : List Char, (∀ c ∈ L, c ≠ ']') → tryAfterBracket X = none →
      new_content resolve (L ++ ']' :: X) = L ++ ']' :: new_content resolve X := by
  intro L
  induction L with
  | nil =>
    intro X _ htb
    rw [List.nil_append, List.nil_append]
    exact new_content_cons_of_ne resolve X (by decide)
  | cons a L ih =>
    intro X hmem htb
    have hmem2 : ∀ c ∈ L, c ≠ ']' := fun c hc => hmem c (by simp [hc])
    show new_content resolve (a :: (L ++ ']' :: X)) = a :: (L ++ ']' :: new_content resolve X)
    by_cases hab : a = '['
    · subst hab
      have hm : tryMatch (L ++ ']' :: X) = none := by
        rcases L with - | ⟨b, L2⟩
        · exact tryMatch_rbracket_cons X
        · rw [tryMatch_append_structure X hmem2 (by simp), htb]
          rfl
      rw [new_content_cons_none resolve hm, ih X hmem2 htb]
    · rw [new_content_cons_of_ne resolve _ hab, ih X hmem2 htb]

theorem tryAfterBracket_lparen_rparen (W : List Char) :
    tryAfterBracket ('(' :: ')' :: W) = none := rfl

theorem tryAfterBracket_sub_none (resolve : List Char → Option (List Char))
    {X : List Char} (h : tryAfterBracket X = none) :
    tryAfterBracket (new_content resolve X) = none := by
  cases X with
  | nil => rfl
  | cons c Y =>
    by_cases hc : c = '('
    · subst hc
      rw [new_content_cons_of_ne resolve Y (by decide)]
      rcases Y with - | ⟨y, Y2⟩
      · rfl
      · by_cases hy : y = ')'
        · subst hy
          rw [new_content_cons_of_ne resolve Y2 (by decide)]
          exact tryAfterBracket_lparen_rparen _
        · have hA : ∀ x ∈ y :: Y2, x ≠ ')' := by
            rcases hd : (y :: Y2).dropWhile (fun c => c ≠ ')') with - | ⟨b, r4⟩
            · intro x hx
              simpa using List.dropWhile_eq_nil_iff.mp hd x hx
            · exfalso
              rw [tryAfterBracket_lparen, hd] at h
              dsimp only at h
              split at h
              · rename_i htw
                rw [List.takeWhile_cons] at htw
                simp [hy] at htw
              · exact Option.noConfusion h
          rw [new_content_of_no_rparen resolve (y :: Y2) hA]
          exact h
    · rcases hnc : new_content resolve (c :: Y) with - | ⟨d, W⟩
      · rfl
      · have hdc : d = c := by
          have hh := new_content_head? resolve (c :: Y)
          rw [hnc] at hh
          simpa using hh
        rw [hdc]
        exact tryAfterBracket_not_lparen W hc

theorem tryMatch_sub_none (resolve : List Char → Option (List Char))
    {cs : List Char} (h : tryMatch cs = none) :
    tryMatch (new_content resolve cs) = none := by
  rcases hL : cs.takeWhile (fun c => c ≠ ']') with - | ⟨a, L2⟩
  · rcases cs with - | ⟨c, cs2⟩
    · rfl
    · have hc : c = ']' := by
        rw [List.takeWhile_cons] at hL
        by_cases hcc : c = ']'
        · exact hcc
        · simp [hcc] at hL
      subst hc
      rw [new_content_cons_of_ne resolve cs2 (by decide)]
      exact tryMatch_rbracket_cons _
  · have hLmem : ∀ c ∈ a :: L2, c ≠ ']' := by
      intro c hc
      have hc2 : c ∈ cs.takeWhile (fun c => c ≠ ']') := by
        rw [hL]
        exact hc
      simpa using List.mem_takeWhile_imp hc2
    rcases hd : cs.dropWhile (fun c => c ≠ ']') with - | ⟨b, X⟩
    · have hmem : ∀ c ∈ cs, c ≠ ']' := by
        intro c hc
        simpa using List.dropWhile_eq_nil_iff.mp hd c hc
      rw [new_content_of_no_rbracket resolve cs hmem]
      exact h
    · have hb : b = ']' := by simpa using dropWhile_cons_head hd
      subst hb
      have hcs : cs = (a :: L2) ++ ']' :: X := by
        have hj := List.takeWhile_append_dropWhile (fun c => c ≠ ']') cs
        rw [hL, hd] at hj
        exact hj.symm
      have htb : tryAfterBracket X = none := by
        rcases htb2 : tryAfterBracket X with - | ⟨t, r⟩
        · rfl
        · exfalso
          rw [hcs, tryMatch_append_structure X hLmem (by simp), htb2] at h
          exact Option.noConfusion h
      rw [hcs, new_content_inert_append resolve (a :: L2) X hLmem htb]
      rw [tryMatch_append_structure (new_content resolve X) hLmem (by simp)]
      rw [tryAfterBracket_sub_none resolve htb]
      rfl

theorem new_content_idempotent (resolve : List Char → Option (List Char))
    (hres : ∀ s o, resolve s = some o → ')' ∉ o) :
    ∀ cs : List Char,
      new_content resolve (new_content resolve cs) = new_content resolve cs := by
  suffices h : ∀ n (cs : List Char), cs.length ≤ n →
      new_content resolve (new_content resolve cs) = new_content resolve cs from
    fun cs => h cs.length cs le_rfl
  intro n
  induction n with
  | zero =>
    intro cs h1
    rw [List.length_eq_zero.mp (Nat.le_zero.mp h1)]
    rfl
  | succ n ih =>
    intro cs h1
    rcases cs with - | ⟨c, cs⟩
    · rfl
    · have hlen : cs.length ≤ n := by simpa using h1
      by_cases hc : c = '['
      · subst hc
        rcases hm : tryMatch cs with - | ⟨l, t, r⟩
        · rw [new_content_cons_none resolve hm]
          rw [new_content_cons_none resolve (tryMatch_sub_none resolve hm)]
          rw [ih cs hlen]
        · obtain ⟨hcs, hlne, htne, hlmem, htmem⟩ := tryMatch_eq hm
          have hrlen : r.length ≤ n := le_trans (tryMatch_some_length hm) hlen
          rw [new_content_cons_some resolve hm, replace_link_fst]
          set t2 := if shouldConvert t then convert_to_github_url resolve t else t
            with ht2
          have ht2ne : t2 ≠ [] := by
            rw [ht2]
            split
            · exact convert_ne_nil resolve t
            · exact htne
          have ht2mem : ∀ x ∈ t2, x ≠ ')' := by
            rw [ht2]
            split
            · intro x hx hxeq
              subst hxeq
              exact convert_no_rparen resolve hres
                (fun hmem => htmem ')' hmem rfl) hx
            · exact htmem
          have ht2sc : shouldConvert t2 = false := by
            rw [ht2]
            split
            · unfold shouldConvert
              rw [convert_isAbsolute]
              rfl
            · rename_i hsc
              simpa using hsc
          have hshape :
              ('[' :: l ++ ']' :: '(' :: (t2 ++ [')'])) ++ new_content resolve r =
                '[' :: (l ++ ']' :: '(' :: (t2 ++ ')' :: new_content resolve r)) := by
            simp
          rw [hshape]
          rw [new_content_cons_some resolve
            (tryMatch_block (new_content resolve r) hlmem hlne ht2mem ht2ne)]
          rw [replace_link_unchanged resolve l ht2sc]
          rw [ih r hrlen]
          simp
      · rw [new_content_cons_of_ne resolve cs hc]
        rw [new_content_cons_of_ne resolve (new_content resolve cs) hc]
        rw [ih cs hlen]

/-! ### The `modified` flag -/

theorem modifiedFlag_eq_any (resolve : List Char → Option (List Char)) :
    ∀ cs : List Char,
      modifiedFlag resolve cs =
        (link_occurrences cs).any (fun p => shouldConvert p.2) := by
  suffices h : ∀ n (cs : List Char), cs.length ≤ n →
      modifiedFlag resolve cs =
        (link_occurrences cs).any (fun p => shouldConvert p.2) from
    fun cs => h cs.length cs le_rfl
  intro n
  induction n with
  | zero =>
    intro cs h1
    rw [List.length_eq_zero.mp (Nat.le_zero.mp h1)]
    rfl
  | succ n ih =>
    intro cs h1
    rcases cs with - | ⟨c, cs⟩
    · rfl
    · have hlen : cs.length ≤ n := by simpa using h1
      by_cases hc : c = '['
      · subst hc
        rcases hm : tryMatch cs with - | ⟨l, t, r⟩
        · rw [modifiedFlag_cons_none resolve hm, link_occurrences_cons_none hm]
          exact ih cs hlen
        · have hrlen : r.length ≤ n := le_trans (tryMatch_some_length hm) hlen
          rw [modifiedFlag_cons_some resolve hm, link_occurrences_cons_some hm]
          rw [List.any_cons, replace_link_snd, ih r hrlen]
      · rw [modifiedFlag_cons_of_ne resolve cs hc, link_occurrences_cons_of_ne cs hc]
        exact ih cs hlen

theorem new_content_of_not_modified (resolve : List Char → Option (List Char)) :
    ∀ cs : List Char, modifiedFlag resolve cs = false → new_content resolve cs = cs := by
  suffices h : ∀ n (cs : List Char), cs.length ≤ n → modifiedFlag resolve cs = false →
      new_content resolve cs = cs from fun cs => h cs.length cs le_rfl
  intro n
  induction n with
  | zero =>
    intro cs h1 _
    rw [List.length_eq_zero.mp (Nat.le_zero.mp h1)]
    rfl
  | succ n ih =>
    intro cs h1 hflag
    rcases cs with - | ⟨c, cs⟩
    · rfl
    · have hlen : cs.length ≤ n := by simpa using h1
      by_cases hc : c = '['
      · subst hc
        rcases hm : tryMatch cs with - | ⟨l, t, r⟩
        · rw [modifiedFlag_cons_none resolve hm] at hflag
          rw [new_content_cons_none resolve hm, ih cs hlen hflag]
        · have hrlen : r.length ≤ n := le_trans (tryMatch_some_length hm) hlen
          rw [modifiedFlag_cons_some resolve hm, Bool.or_eq_false_iff] at hflag
          obtain ⟨hsc, hrest⟩ := hflag
          rw [replace_link_snd] at hsc
          rw [new_content_cons_some resolve hm,
            replace_link_unchanged resolve l hsc, ih r hrlen hrest]
          obtain ⟨hcs, -⟩ := tryMatch_eq hm
          rw [hcs]
          simp
      · rw [modifiedFlag_cons_of_ne resolve cs hc] at hflag
        rw [new_content_cons_of_ne resolve cs hc, ih cs hlen hflag]

/-! ### The namespace condition -/

theorem keys_no_slash : ∀ kv ∈ SUBMODULES, ∀ c ∈ kv.1, c ≠ '/' := by decide

theorem submoduleCond_iff (url : List Char) :
    submoduleCond url = true ↔
      ∃ kv ∈ SUBMODULES, url = kv.1 ∨ List.isPrefixOf (kv.1 ++ ['/']) url = true := by
  unfold submoduleCond
  rw [Bool.or_eq_true]
  constructor
  · rintro (h1 | h2)
    · obtain ⟨kv, hkv, hpre⟩ := List.any_eq_true.mp h1
      exact ⟨kv, hkv, Or.inr hpre⟩
    · obtain ⟨kv, hkv, heq⟩ := List.any_eq_true.mp h2
      rcases hsp : splitSlash url with - | ⟨p0, ps⟩
      · exact absurd hsp (splitSlash_ne_nil url)
      · rw [hsp] at heq
        simp only [decide_eq_true_eq] at heq
        rcases firstSegment_cases hsp with hbare | ⟨rest, hrest⟩
        · exact ⟨kv, hkv, Or.inl (by rw [hbare, heq])⟩
        · refine ⟨kv, hkv, Or.inr ?_⟩
          rw [List.isPrefixOf_iff_prefix, heq, hrest,
            show p0 ++ '/' :: rest = (p0 ++ ['/']) ++ rest by simp]
          exact List.prefix_append _ _
  · rintro ⟨kv, hkv, hbare | hpre⟩
    · right
      refine List.any_eq_true.mpr ⟨kv, hkv, ?_⟩
      have hns := splitSlash_no_slash (keys_no_slash kv hkv)
      rw [hbare, hns]
      simp
    · left
      exact List.any_eq_true.mpr ⟨kv, hkv, hpre⟩

theorem needs_conversion_eq_false {url : List Char}
    (h1 : hasInfix "../".data url = false)
    (h2 : List.isPrefixOf "./".data url = false)
    (h3 : ∀ kv ∈ SUBMODULES, url ≠ kv.1 ∧ List.isPrefixOf (kv.1 ++ ['/']) url = false) :
    needs_conversion url = false := by
  unfold needs_conversion
  rw [h1, h2]
  have hsc : submoduleCond url = false := by
    rcases hv : submoduleCond url
    · rfl
    · obtain ⟨kv, hkv, hcase⟩ := (submoduleCond_iff url).mp hv
      obtain ⟨hne, hnp⟩ := h3 kv hkv
      rcases hcase with hbare | hpre
      · exact absurd hbare hne
      · rw [hnp] at hpre
        exact absurd hpre (by simp)
  rw [hsc]
  rfl

/-! ### The classification formula (specification reading) -/

theorem convert_eq_github_url_per_spec (resolve : List Char → Option (List Char))
    (url : List Char) :
    convert_to_github_url resolve url = github_url_per_spec resolve url := by
  rw [convert_eq_classify]
  show classifyResolved (resolvedPathOf resolve url) = github_url_per_spec resolve url
  have hmain : ∀ res : List Char,
      classifyResolved res =
        match SUBMODULES.lookup (firstSegment res) with
        | some base =>
          base ++ "/blob/".data ++ DEFAULT_BRANCH ++ '/' :: afterFirstSegment res
        | none => MAIN_REPO ++ "/blob/".data ++ DEFAULT_BRANCH ++ '/' :: res := by
    intro res
    unfold classifyResolved
    rcases hsp : splitSlash res with - | ⟨p0, ps⟩
    · exact absurd hsp (splitSlash_ne_nil res)
    · dsimp only
      rw [← splitSlash_head_eq hsp]
      rcases hlk : SUBMODULES.lookup p0 with - | ⟨base⟩ <;> dsimp only
      rw [splitSlash_tail_eq hsp]
  exact hmain (resolvedPathOf resolve url)

/-! ### `process_markdown_file` and `main` -/

theorem process_markdown_file_eq (f : FileModel) :
    process_markdown_file f =
      ((match f.readResult with
        | none => false
        | some content => modifiedFlag f.resolve content) && f.writeOk) := by
  unfold process_markdown_file
  rcases hr : f.readResult with - | ⟨content⟩ <;> dsimp only
  · rfl
  · rcases hm : modifiedFlag f.resolve content <;> simp [hm]

/-! ## The claims -/

/-- C1, counterexample: the target `a../b` is a candidate (no scheme marker,
no `#`), contains no parent-directory traversal *segment* (its segments are
`a..` and `b`), does not begin with `./`, and its first segment matches no
sub-namespace key — yet `replace_link` rewrites it (the substring check
`'../' in url` fires on `a../`), so the Resolver does not return it
unchanged. -/
theorem claim1_counterexample :
    isAbsoluteOrAnchor "a../b".data = false ∧
    (∀ s ∈ splitSlash "a../b".data, s ≠ "..".data) ∧
    List.isPrefixOf "./".data "a../b".data = false ∧
    (∀ kv ∈ SUBMODULES, "a../b".data ≠ kv.1 ∧
      List.isPrefixOf (kv.1 ++ ['/']) "a../b".data = false) ∧
    (replace_link (fun _ => none) "label".data "a../b".data).1 ≠
      '[' :: "label".data ++ ']' :: '(' :: ("a../b".data ++ [')']) ∧
    (replace_link (fun _ => none) "label".data "a../b".data).2 = true := by
  decide

/-- C1 (amended): for every candidate target (not beginning with a URL scheme
marker or `#`) that does not contain the substring `../` anywhere, does not
begin with `./`, and whose first path segment matches no sub-namespace key
(neither as a bare first segment nor followed by a path separator), the
Resolver returns the target unchanged (and does not set the modified flag). -/
theorem claim1_theorem (resolve : List Char → Option (List Char))
    (text url : List Char)
    (hcand : isAbsoluteOrAnchor url = false)
    (h1 : hasInfix "../".data url = false)
    (h2 : List.isPrefixOf "./".data url = false)
    (h3 : ∀ kv ∈ SUBMODULES, url ≠ kv.1 ∧
      List.isPrefixOf (kv.1 ++ ['/']) url = false) :
    replace_link resolve text url =
      ('[' :: text ++ ']' :: '(' :: (url ++ [')']), false) := by
  have hnc := needs_conversion_eq_false h1 h2 h3
  unfold replace_link
  rw [hcand, hnc]
  simp

theorem claim1_witness :
    replace_link (fun _ => none) "label".data "docs/readme.md".data =
      ('[' :: "label".data ++ ']' :: '(' :: ("docs/readme.md".data ++ [')']), false) :=
  claim1_theorem (fun _ => none) "label".data "docs/readme.md".data
    (by decide) (by decide) (by decide) (by decide)

/-- C2: every target beginning with `http://`, `https://` or `#` is returned
unchanged by the Resolver — the whole link occurrence `[text](url)` is
reproduced identically and the modified flag is not set — for every
resolution function (hence regardless of the document's path). -/
theorem claim2_theorem (resolve : List Char → Option (List Char))
    (text url : List Char)
    (h : List.isPrefixOf "http://".data url = true ∨
      List.isPrefixOf "https://".data url = true ∨
      List.isPrefixOf "#".data url = true) :
    replace_link resolve text url =
      ('[' :: text ++ ']' :: '(' :: (url ++ [')']), false) := by
  have habs : isAbsoluteOrAnchor url = true := by
    unfold isAbsoluteOrAnchor
    rcases h with h | h | h <;> rw [h] <;> simp
  unfold replace_link
  rw [habs]
  simp

theorem claim2_witness :
    replace_link (fun _ => none) "anchor".data "#section-two".data =
      ('[' :: "anchor".data ++ ']' :: '(' :: ("#section-two".data ++ [')']), false) :=
  claim2_theorem (fun _ => none) "anchor".data "#section-two".data
    (Or.inr (Or.inr (by decide)))

/-- C3, counterexample: rewriting is *not* idempotent for every document.  For
the document `do)cs/x/guide.md` (a directory name containing `)`, run from the
repository root) with text `[L](./t][u](v../w)`, the first pass produces a
replacement URL containing `)`, which truncates the target of the re-parsed
link on the second pass; the tail `[u](v../w)` then re-parses as a fresh link
containing `../` and is rewritten again, so the second pass changes the
text. -/
theorem claim3_counterexample :
    new_content (pathlib_resolve [] ["do)cs".data, "x".data])
        (new_content (pathlib_resolve [] ["do)cs".data, "x".data])
          "[L](./t][u](v../w)".data) ≠
      new_content (pathlib_resolve [] ["do)cs".data, "x".data])
        "[L](./t][u](v../w)".data := by
  decide

/-- C3 (amended): the document rewrite (Locator plus Resolver plus
substitution) is idempotent on every document text, provided every path
produced by the resolution step contains no `)` character (true of any
repository whose directory names avoid `)`; replacement URLs then re-parse as
whole targets, begin with `https://`, and are exempt on the second pass). -/
theorem claim3_theorem (resolve : List Char → Option (List Char))
    (hres : ∀ s o, resolve s = some o → ')' ∉ o) (content : List Char) :
    new_content resolve (new_content resolve content) =
      new_content resolve content :=
  new_content_idempotent resolve hres content

theorem claim3_witness :
    new_content (fun _ => none)
        (new_content (fun _ => none)
          "see [setup](../streamsource/README.md) and [ext](https://example.com/x)".data) =
      new_content (fun _ => none)
        "see [setup](../streamsource/README.md) and [ext](https://example.com/x)".data :=
  claim3_theorem (fun _ => none) (by simp)
    "see [setup](../streamsource/README.md) and [ext](https://example.com/x)".data

/-- C4: for every target selected for conversion, the replacement URL follows
the specification's formula: resolve the target (stripping a leading `./`,
falling back to the raw string); if the resolved path's first segment (the
part before the first `/`) equals a sub-namespace key, the result is
`{that sub-namespace's base URL}/blob/{branch}/{remaining path after the
first separator}`, and otherwise
`{main namespace base URL}/blob/{branch}/{resolved path}` — where the branch
is the single configured constant `DEFAULT_BRANCH`. -/
theorem claim4_theorem (resolve : List Char → Option (List Char))
    (url : List Char) (_h : needs_conversion url = true) :
    convert_to_github_url resolve url = github_url_per_spec resolve url :=
  convert_eq_github_url_per_spec resolve url

theorem claim4_witness :
    needs_conversion "streamsource/README.md".data = true ∧
    convert_to_github_url (fun _ => none) "streamsource/README.md".data =
      github_url_per_spec (fun _ => none) "streamsource/README.md".data ∧
    convert_to_github_url (fun _ => none) "streamsource/README.md".data =
      "https://github.com/streamwall/streamsource/blob/main/README.md".data :=
  ⟨by decide,
   claim4_theorem (fun _ => none) "streamsource/README.md".data (by decide),
   by decide⟩

/-- C5, counterexample: when resolution fails, the code does *not* use the raw
target string verbatim as the resolved path — it uses the target with the
leading `./` already stripped.  For the document directory `other` outside the
working root `repo` (so `relative_to` raises and resolution fails), target
`./foo` yields `…/blob/main/foo`, not `…/blob/main/./foo`. -/
theorem claim5_counterexample :
    pathlib_resolve ["repo".data] ["other".data] "foo".data = none ∧
    convert_to_github_url (pathlib_resolve ["repo".data] ["other".data])
        "./foo".data =
      "https://github.com/sayhiben/streamwall-suite/blob/main/foo".data ∧
    convert_to_github_url (pathlib_resolve ["repo".data] ["other".data])
        "./foo".data ≠
      "https://github.com/sayhiben/streamwall-suite/blob/main/./foo".data := by
  decide

/-- C5 (amended): path resolution never raises: whenever the resolution step
fails (`resolve` returns `none`), `convert_to_github_url` still produces a
replacement URL, using the target string with any leading `./` stripped —
verbatim, with no other normalization — as the resolved path fed to the
namespace classification. -/
theorem claim5_theorem (resolve : List Char → Option (List Char))
    (url : List Char) (h : resolve (stripDotSlash url) = none) :
    convert_to_github_url resolve url = classifyResolved (stripDotSlash url) := by
  rw [convert_eq_classify]
  unfold resolvedPathOf
  rw [h]

theorem claim5_witness :
    pathlib_resolve ["repo".data] ["other".data] (stripDotSlash "./guide.md".data) =
      none ∧
    convert_to_github_url (pathlib_resolve ["repo".data] ["other".data])
        "./guide.md".data =
      classifyResolved (stripDotSlash "./guide.md".data) :=
  ⟨by decide,
   claim5_theorem (pathlib_resolve ["repo".data] ["other".data]) "./guide.md".data
     (by decide)⟩

/-- C6: the `modified` flag computed by the rewriter is `true` if and only if
at least one link occurrence located in the document's text passed the
eligibility filter (is not an absolute URL or anchor) and the needs-conversion
test — i.e. produced a replacement; with no such occurrence the flag stays
`false`. -/
theorem claim6_theorem (resolve : List Char → Option (List Char))
    (content : List Char) :
    modifiedFlag resolve content = true ↔
      ∃ p ∈ link_occurrences content,
        isAbsoluteOrAnchor p.2 = false ∧ needs_conversion p.2 = true := by
  rw [modifiedFlag_eq_any resolve content, List.any_eq_true]
  have hsc : ∀ t : List Char, shouldConvert t = true ↔
      (isAbsoluteOrAnchor t = false ∧ needs_conversion t = true) := by
    intro t
    unfold shouldConvert
    rcases isAbsoluteOrAnchor t <;> rcases needs_conversion t <;> simp
  constructor
  · rintro ⟨p, hp, hcond⟩
    exact ⟨p, hp, (hsc p.2).mp hcond⟩
  · rintro ⟨p, hp, hcond⟩
    exact ⟨p, hp, (hsc p.2).mpr hcond⟩

/-- C7: for a document whose text contains no occurrence selected for
conversion, no write is performed (`writtenText` is `none`) and the
reconstructed text equals the original text byte for byte. -/
theorem claim7_theorem (f : FileModel) (content : List Char)
    (hread : f.readResult = some content)
    (hnone : ∀ p ∈ link_occurrences content, shouldConvert p.2 = false) :
    writtenText f = none ∧ new_content f.resolve content = content := by
  have hflag : modifiedFlag f.resolve content = false := by
    rcases hv : modifiedFlag f.resolve content
    · rfl
    · rw [modifiedFlag_eq_any f.resolve content, List.any_eq_true] at hv
      obtain ⟨p, hp, hc⟩ := hv
      rw [hnone p hp] at hc
      exact absurd hc (by simp)
  refine ⟨?_, new_content_of_not_modified f.resolve content hflag⟩
  unfold writtenText
  rw [hread]
  dsimp only
  rw [hflag]
  rfl

theorem claim7_witness :
    writtenText ⟨true, true, some "hello [a](b) world".data, true, fun _ => none⟩ =
      none ∧
    new_content (fun _ => none) "hello [a](b) world".data =
      "hello [a](b) world".data :=
  claim7_theorem ⟨true, true, some "hello [a](b) world".data, true, fun _ => none⟩
    "hello [a](b) world".data rfl (by decide)

/-- C8: the namespace condition of the needs-conversion test (its last two
disjuncts) requires a full-segment match: it holds exactly when the target
equals a sub-namespace key outright or begins with that key immediately
followed by `/` — a key followed by any other character does not satisfy it.
The first conjunct records that `needs_conversion` is exactly the
disjunction of the `../`-substring test, the `./`-prefix test, and this
namespace condition. -/
theorem claim8_theorem (url : List Char) :
    needs_conversion url =
      (hasInfix "../".data url || List.isPrefixOf "./".data url ||
        submoduleCond url) ∧
    (submoduleCond url = true ↔
      ∃ kv ∈ SUBMODULES, url = kv.1 ∨
        List.isPrefixOf (kv.1 ++ ['/']) url = true) :=
  ⟨rfl, submoduleCond_iff url⟩

/-- C9: the exempt-prefix set is exactly `{http://, https://, #}`: any target
with none of these three prefixes — e.g. a `mailto:`, `ftp://` or
protocol-relative `//` target — is a candidate, and when it satisfies a
needs-conversion condition it *is* rewritten into a namespace URL (the
modified flag is set and the target is replaced by the converted URL). -/
theorem claim9_theorem (resolve : List Char → Option (List Char))
    (text url : List Char)
    (h1 : List.isPrefixOf "http://".data url = false)
    (h2 : List.isPrefixOf "https://".data url = false)
    (h3 : List.isPrefixOf "#".data url = false)
    (h4 : needs_conversion url = true) :
    (replace_link resolve text url).2 = true ∧
    (replace_link resolve text url).1 =
      '[' :: text ++ ']' :: '(' :: (convert_to_github_url resolve url ++ [')']) := by
  have habs : isAbsoluteOrAnchor url = false := by
    unfold isAbsoluteOrAnchor
    rw [h1, h2, h3]
    rfl
  unfold replace_link
  rw [habs, h4]
  simp

theorem claim9_witness :
    (replace_link (fun _ => none) "m".data "mailto:../contact".data).2 = true ∧
    (replace_link (fun _ => none) "m".data "mailto:../contact".data).1 =
      '[' :: "m".data ++ ']' :: '(' ::
        (convert_to_github_url (fun _ => none) "mailto:../contact".data ++ [')']) :=
  claim9_theorem (fun _ => none) "m".data "mailto:../contact".data
    (by decide) (by decide) (by decide) (by decide)

/-- C10: the final summary count counts exactly the documents that were
present regular files, readable, modified in memory, and written back
successfully; and `process_markdown_file` returns `true` exactly when the
document was readable, modified, and its write succeeded — so a document
whose write fails (like an unmodified or unreadable one) is excluded from
the count. -/
theorem claim10_theorem (files : List FileModel) :
    main_updated_count files =
      files.countP (fun f => f.present && f.isFile &&
        (match f.readResult with
         | none => false
         | some content => modifiedFlag f.resolve content) && f.writeOk) ∧
    ∀ f : FileModel, process_markdown_file f =
      ((match f.readResult with
        | none => false
        | some content => modifiedFlag f.resolve content) && f.writeOk) := by
  refine ⟨?_, process_markdown_file_eq⟩
  unfold main_updated_count
  refine List.countP_congr ?_
  intro f _
  rw [process_markdown_file_eq f]
  rcases f.present <;> rcases f.isFile <;> simp [Bool.and_assoc]
